import Mathlib

/-!
Shallow embedding of the essay-generator's job lifecycle and grade-boundary
interpolation engine (Netlify functions, JavaScript source).  Strings are
modelled at the character-list level; JavaScript numbers appearing in the
interpolation arithmetic are modelled exactly as rationals, with
`Math.round` as `⌊q + 1/2⌋` (JS rounds halves toward +∞) and `Math.floor`
as the rational floor.  Whitespace is the ASCII fragment of JS `\s`.
-/

/-- ASCII fragment of the JS `\s` character class (space, tab, LF, VT, FF, CR). -/
def jsWhitespace (c : Char) : Bool :=
  c == ' ' || c == '\t' || c == '\n' || c == Char.ofNat 11 || c == Char.ofNat 12 || c == '\r'

/-- The JS `\d` class. -/
def digitChar (c : Char) : Bool :=
  ('0' ≤ c && c ≤ '9')

/-- The class `[A-Z\d*+]` under the `i` flag: ASCII letters, digits, `*`, `+`. -/
def gradeTokenChar (c : Char) : Bool :=
  ('A' ≤ c && c ≤ 'Z') || ('a' ≤ c && c ≤ 'z') || digitChar c || c == '*' || c == '+'

/-- ASCII `String.prototype.toUpperCase` on one character. -/
def upperChar (c : Char) : Char :=
  if 'a' ≤ c && c ≤ 'z' then Char.ofNat (c.toNat - 32) else c

/-- `parseInt` on an all-digit token. -/
def digitsToNat (l : List Char) : Nat :=
  l.foldl (fun acc c => 10 * acc + (c.toNat - 48)) 0

/-- Decimal digits of a natural number, accumulator style (fuel-driven). -/
def natToCharsAux : Nat → Nat → List Char → List Char
  | 0, _, acc => acc
  | fuel + 1, n, acc =>
    let acc' := Char.ofNat (48 + n % 10) :: acc
    if n < 10 then acc' else natToCharsAux fuel (n / 10) acc'

/-- JS number-to-string for an integer value. -/
def natToChars (n : Nat) : List Char := natToCharsAux (n + 1) n []

/-- JS number-to-string for a (possibly negative) integer value. -/
def intToChars (i : Int) : List Char :=
  if i < 0 then '-' :: natToChars (-i).toNat else natToChars i.toNat

/-- JS `String.prototype.trim` (ASCII whitespace). -/
def trimChars (s : List Char) : List Char :=
  ((s.dropWhile jsWhitespace).reverse.dropWhile jsWhitespace).reverse

/-- JS `String.prototype.split('\n')`. -/
def splitNl : List Char → List (List Char)
  | [] => [[]]
  | c :: rest =>
    match splitNl rest with
    | [] => [[]]
    | l :: ls => if c = '\n' then [] :: l :: ls else (c :: l) :: ls

/-- JS `Array.prototype.join('\n')`. -/
def joinNl (ls : List (List Char)) : List Char :=
  List.intercalate ['\n'] ls

/-- JS `Math.round`: rounds halves toward positive infinity. -/
def jround (q : ℚ) : Int := ⌊q + 1 / 2⌋

/-! ### The boundary-line pattern

`/(?:Grade\s+)?([A-Z\d*+]+)\s*:\s*(\d+)(?:\s*-\s*(\d+))?/i` applied with
`String.prototype.match` (leftmost match; captures 1-3).  The backtracking of
this particular pattern collapses to a deterministic scan: the token class,
`\s` and the literal characters are pairwise disjoint, so each greedy piece
matches its maximal run.
-/

/-- One parsed `(grade, minMark, maxMark)` tuple; grade token kept verbatim
(pre-uppercasing), marks as parsed integers. -/
structure RawBoundary where
  grade : List Char
  minMark : Int
  maxMark : Int
deriving DecidableEq, Repr

/-- Body of the pattern after the optional `Grade\s+` label: token, colon,
integer, optional dash integer. -/
def matchCore (s : List Char) : Option (List Char × Nat × Nat) :=
  let tok := s.takeWhile gradeTokenChar
  if tok.isEmpty then none
  else
    match (s.drop tok.length).dropWhile jsWhitespace with
    | ':' :: r2 =>
      let r3 := r2.dropWhile jsWhitespace
      let d1 := r3.takeWhile digitChar
      if d1.isEmpty then none
      else
        match (r3.drop d1.length).dropWhile jsWhitespace with
        | '-' :: r5 =>
          let d2 := (r5.dropWhile jsWhitespace).takeWhile digitChar
          if d2.isEmpty then some (tok, digitsToNat d1, digitsToNat d1)
          else some (tok, digitsToNat d1, digitsToNat d2)
        | _ => some (tok, digitsToNat d1, digitsToNat d1)
    | _ => none

/-- The optional case-insensitive `Grade\s+` label: returns the suffix after
the label and its maximal whitespace run, when present. -/
def stripGradeLabel (s : List Char) : Option (List Char) :=
  match s with
  | g :: r :: a :: d :: e :: c :: rest =>
    if upperChar g = 'G' && upperChar r = 'R' && upperChar a = 'A' &&
       upperChar d = 'D' && upperChar e = 'E' && jsWhitespace c then
      some ((c :: rest).dropWhile jsWhitespace)
    else none
  | _ => none

/-- Attempt of the whole pattern anchored at the head of `s`: the greedy
optional label is tried first, then the labelless alternative. -/
def tryAt (s : List Char) : Option (List Char × Nat × Nat) :=
  match stripGradeLabel s with
  | some s' =>
    match matchCore s' with
    | some r => some r
    | none => matchCore s
  | none => matchCore s

/-- Leftmost match of the pattern over the line. -/
def scanMatch : List Char → Option (List Char × Nat × Nat)
  | [] => none
  | c :: rest =>
    match tryAt (c :: rest) with
    | some r => some r
    | none => scanMatch rest

/-- Parsing stage of `processGradeBoundaries`: split on newlines, trim,
drop blank lines, keep the lines the pattern matches; the grade token is
uppercased, a missing max mark defaults to the min mark. -/
def parseBoundaries (text : List Char) : List RawBoundary :=
  let lines := ((splitNl text).map trimChars).filter (fun l => !l.isEmpty)
  lines.filterMap (fun l =>
    (scanMatch l).map (fun r => ⟨r.1.map upperChar, (r.2.1 : Int), (r.2.2 : Int)⟩))

/-! ### Stable sorting, the grade map, and nearest neighbours

`Array.prototype.sort` with a consistent comparator is a stable sort; its
output is the unique permutation that is sorted for the comparator's total
preorder and keeps the original order of ties, so a stable insertion sort
models it exactly.  `new Map(entries)` keeps the last value written for a
duplicated key.
-/

/-- Stable insertion of `a` before the first element it may precede. -/
def insertBy (r : α → α → Bool) (a : α) : List α → List α
  | [] => [a]
  | b :: bs => if r a b then a :: b :: bs else b :: insertBy r a bs

/-- Stable insertion sort for the relation `r a b` = "`a` may come before `b`". -/
def sortBy (r : α → α → Bool) : List α → List α
  | [] => []
  | a :: as => insertBy r a (sortBy r as)

/-- `boundaries.sort((a, b) => b.minMark - a.minMark)`. -/
def sortBoundaries (bs : List RawBoundary) : List RawBoundary :=
  sortBy (fun a b => b.minMark ≤ a.minMark) bs

/-- `.sort((a, b) => b - a)` on grade numbers. -/
def sortIntDesc (l : List Int) : List Int :=
  sortBy (fun a b : Int => b ≤ a) l

/-- `Map.prototype.get`: the value of the last entry carrying the key. -/
def mapGet : List (Int × α) → Int → Option α
  | [], _ => none
  | (k, v) :: rest, key =>
    match mapGet rest key with
    | some r => some r
    | none => if k = key then some v else none

/-- Accumulator pass keeping the first occurrence of each key. -/
def dedupAux (seen : List Int) : List Int → List Int
  | [] => []
  | k :: ks => if k ∈ seen then dedupAux seen ks else k :: dedupAux (k :: seen) ks

/-- `Map.prototype.keys`: each key once, in first-occurrence order. -/
def dedupKeys (l : List Int) : List Int := dedupAux [] l

/-- The loop computing the nearest known grade above: the least key
exceeding `g`, scanned as in the source. -/
def nearestAbove (ks : List Int) (g : Int) : Option Int :=
  ks.foldl (fun acc k =>
    if g < k then
      match acc with
      | none => some k
      | some a => if k < a then some k else some a
    else acc) none

/-- The loop computing the nearest known grade below: the greatest key
under `g`. -/
def nearestBelow (ks : List Int) (g : Int) : Option Int :=
  ks.foldl (fun acc k =>
    if k < g then
      match acc with
      | none => some k
      | some b => if b < k then some k else some b
    else acc) none

/-- A numeric boundary: a parsed boundary together with `gradeNum`. -/
structure NumBoundary where
  grade : List Char
  gradeNum : Int
  minMark : Int
  maxMark : Int
deriving DecidableEq, Repr

/-- `{...b, gradeNum: parseInt(b.grade)}`. -/
def toNB (b : RawBoundary) : NumBoundary :=
  ⟨b.grade, (digitsToNat b.grade : Int), b.minMark, b.maxMark⟩

/-- `Array.from(knownGrades.keys()).sort((a, b) => b - a)`. -/
def ksOf (pairs : List (Int × NumBoundary)) : List Int :=
  sortIntDesc (dedupKeys (pairs.map Prod.fst))

/-- `Math.round(n / d)` computed by integer floor division, so that the
kernel can evaluate it: equal to `jround ((n : ℚ) / d)` whenever `d ≠ 0`
(theorem `roundRat_eq_jround`); `d = 0` is dead in reachable calls (JS
produces an infinity there). -/
def roundRat (n d : Int) : Int :=
  if 0 < d then (2 * n + d) / (2 * d)
  else if d < 0 then (2 * (-n) + (-d)) / (2 * (-d))
  else 0

/-- The interpolation branch of `interpolateGrade`, between the known
boundaries `ub` (at grade `a`) and `lb` (at grade `b`):
`markPerGrade = markDiff / gradeDiff`,
`minMark = round(ub.minMark − (a − g)·markPerGrade)` and
`maxMark = round(minMark + markPerGrade − 1)`, with the denominator
`gradeDiff` cleared (theorems `interpBetween_minMark` and
`interpBetween_maxMark` state the uncleared formulas). -/
def interpBetween (g a b : Int) (ub lb : NumBoundary) : NumBoundary :=
  let gradeDiff := a - b
  let markDiff := ub.minMark - lb.minMark
  let minMark := roundRat (ub.minMark * gradeDiff - (a - g) * markDiff) gradeDiff
  let maxMark := roundRat ((minMark - 1) * gradeDiff + markDiff) gradeDiff
  ⟨intToChars g, g, minMark, maxMark⟩

/-- `interpolateGrade(grade, knownGrades, totalMarks)`.  The map is the
association list of `(gradeNum, boundary)` pairs; arithmetic is exact
rational arithmetic (the JS divisions by zero reachable only in the
extrapolation branches are modelled by rational division, where `q / 0 = 0`).
The `none` fallbacks on a failed `get` mirror keys that the map cannot miss. -/
def interpolateGrade (g : Int) (pairs : List (Int × NumBoundary)) (totalMarks : Int) :
    Option NumBoundary :=
  let ks := ksOf pairs
  match nearestAbove ks g, nearestBelow ks g with
  | some a, some b =>
    match mapGet pairs a, mapGet pairs b with
    | some ub, some lb => some (interpBetween g a b ub lb)
    | _, _ => none
  | some a, none =>
    match mapGet pairs a with
    | some ub =>
      let avgMarkPerGrade : Int := ⌊(ub.minMark : ℚ) / (a : ℚ)⌋
      let minMark : Int := max 0 (jround ((ub.minMark : ℚ) - ((a - g : Int) : ℚ) * (avgMarkPerGrade : ℚ)))
      let maxMark : Int := jround ((ub.minMark : ℚ) - 1)
      some ⟨intToChars g, g, minMark, maxMark⟩
    | none => none
  | none, some b =>
    match mapGet pairs b with
    | some lb =>
      let avgMarkPerGrade : Int := ⌊((totalMarks - lb.minMark : Int) : ℚ) / ((10 - b : Int) : ℚ)⌋
      let minMark : Int := jround ((lb.maxMark : ℚ) + 1 + ((g - b - 1 : Int) : ℚ) * (avgMarkPerGrade : ℚ))
      let maxMark : Int := min totalMarks (jround ((minMark : ℚ) + (avgMarkPerGrade : ℚ) - 1))
      some ⟨intToChars g, g, minMark, maxMark⟩
    | none => none
  | none, none => none

/-- `for (let grade = maxGrade; grade >= minGrade; grade--)`: the known
boundary when present, otherwise the interpolated one when non-null. -/
def fillGrades (pairs : List (Int × NumBoundary)) (totalMarks : Int) :
    Int → Nat → List NumBoundary
  | _, 0 => []
  | g, n + 1 =>
    (match mapGet pairs g with
     | some b => [b]
     | none => (interpolateGrade g pairs totalMarks).toList) ++
    fillGrades pairs totalMarks (g - 1) n

/-- `Math.max(...xs)` over a non-empty list (0 is a dead default). -/
def listMax : List Int → Int
  | [] => 0
  | x :: xs => xs.foldl max x

/-- `Math.min(...xs)` over a non-empty list (0 is a dead default). -/
def listMin : List Int → Int
  | [] => 0
  | x :: xs => xs.foldl min x

/-- `` `Grade ${grade}: ${min}-${max} marks` `` on a numeric entry. -/
def formatNum (b : NumBoundary) : List Char :=
  ("Grade ").data ++ b.grade ++ (": ").data ++ intToChars b.minMark ++
    ('-' :: intToChars b.maxMark) ++ (" marks").data

/-- `` `Grade ${grade}: ${min}-${max} marks` `` on a parsed entry. -/
def formatRaw (b : RawBoundary) : List Char :=
  ("Grade ").data ++ b.grade ++ (": ").data ++ intToChars b.minMark ++
    ('-' :: intToChars b.maxMark) ++ (" marks").data

/-- `/^\d+$/.test(b.grade)` for every parsed boundary. -/
def isAllNumeric (bs : List RawBoundary) : Bool :=
  bs.all (fun b => !b.grade.isEmpty && b.grade.all digitChar)

/-- The numeric boundaries of an input, sorted descending by min mark. -/
def numericBoundariesOf (text : List Char) : List NumBoundary :=
  (sortBoundaries (parseBoundaries text)).map toNB

/-- `new Map(numericBoundaries.map(b => [b.gradeNum, b]))` as pairs. -/
def pairsOfText (text : List Char) : List (Int × NumBoundary) :=
  (numericBoundariesOf text).map (fun b => (b.gradeNum, b))

/-- The observed maximum grade. -/
def maxGradeOf (text : List Char) : Int :=
  listMax ((numericBoundariesOf text).map (fun b => b.gradeNum))

/-- The observed minimum grade. -/
def minGradeOf (text : List Char) : Int :=
  listMin ((numericBoundariesOf text).map (fun b => b.gradeNum))

/-- The complete entry list produced by the fill loop on numeric input. -/
def numericFillOf (text : List Char) (totalMarks : Int) : List NumBoundary :=
  fillGrades (pairsOfText text) totalMarks (maxGradeOf text)
    (maxGradeOf text - minGradeOf text + 1).toNat

/-- `processGradeBoundaries(boundariesText, totalMarks)`: `none` models the
JS `null` return. -/
def processGradeBoundaries (text : List Char) (totalMarks : Int) : Option (List Char) :=
  if (trimChars text).isEmpty then none
  else if (parseBoundaries text).isEmpty then some text
  else if isAllNumeric (sortBoundaries (parseBoundaries text)) then
    some (joinNl ((numericFillOf text totalMarks).map formatNum))
  else
    some (joinNl ((sortBoundaries (parseBoundaries text)).map formatRaw))

/-! ### Scaling of searched boundary tables (grade-search worker) -/

/-- A boundary as returned by the grade-boundary search (`maxMarks` may be
absent). -/
structure SearchBoundary where
  grade : List Char
  minMarks : Int
  maxMarks : Option Int
deriving DecidableEq, Repr

/-- A scaled boundary: scaled values plus the preserved originals. -/
structure ScaledBoundary where
  grade : List Char
  minMarks : Int
  maxMarks : Option Int
  originalMin : Int
  originalMax : Option Int
deriving DecidableEq, Repr

/-- `scaleBoundaries(boundaries, originalMax, targetMax)`: the guard returns
the input unchanged (left); otherwise each entry is rescaled (right).  A JS
falsy `maxMarks` (absent or zero) maps to `null`. -/
def scaleBoundaries (bs : List SearchBoundary) (originalMax targetMax : Int) :
    List SearchBoundary ⊕ List ScaledBoundary :=
  if originalMax = 0 then Sum.inl bs
  else
    let scale : ℚ := (targetMax : ℚ) / (originalMax : ℚ)
    Sum.inr (bs.map (fun b =>
      ⟨b.grade, jround ((b.minMarks : ℚ) * scale),
        match b.maxMarks with
        | some m => if m = 0 then none else some (jround ((m : ℚ) * scale))
        | none => none,
        b.minMarks, b.maxMarks⟩))

/-! ### Extraction of generated code from the model response

`extractJavaScript` applies `/```(?:javascript|js)?\s*([\s\S]*?)```/` and
falls back to `/(window\.ESSAY_CONFIG[\s\S]*};?)/`, then to the trimmed raw
text.  The fence characters are disjoint from the language tags and from
whitespace, so the regexes reduce to deterministic scans: the first fence
pair, with the greedy optional tag and whitespace consumed after the opening
fence; the config capture runs from the marker to the last closing brace. -/

/-- The backtick character (code point 96). -/
def backtick : Char := Char.ofNat 96

/-- The fence delimiter `` ``` ``. -/
def fence : List Char := [backtick, backtick, backtick]

/-- Index of the first occurrence of `pat` in a list. -/
def firstOcc (pat : List Char) : List Char → Option Nat
  | [] => if pat.isEmpty then some 0 else none
  | c :: rest =>
    if pat.isPrefixOf (c :: rest) then some 0
    else (firstOcc pat rest).map (· + 1)

/-- Index of the last occurrence of the character `c`. -/
def lastIdxOf (c : Char) : List Char → Option Nat
  | [] => none
  | x :: rest =>
    match lastIdxOf c rest with
    | some p => some (p + 1)
    | none => if x = c then some 0 else none

/-- The greedy optional language tag `(?:javascript|js)?`. -/
def dropLangTag (s : List Char) : List Char :=
  if ("javascript").data.isPrefixOf s then s.drop 10
  else if ("js").data.isPrefixOf s then s.drop 2
  else s

/-- The marker of the fallback pattern. -/
def configMarker : List Char := ("window.ESSAY_CONFIG").data

/-- The fallback of `extractJavaScript`: the `window.ESSAY_CONFIG` capture to
the last closing brace (plus a directly following semicolon), else the
trimmed raw text. -/
def extractFallback (text : List Char) : List Char :=
  match firstOcc configMarker text with
  | some m =>
    let tail := text.drop (m + 19)
    match lastIdxOf '}' tail with
    | some p =>
      let stop := if (tail.drop (p + 1)).head? = some ';' then p + 2 else p + 1
      trimChars (configMarker ++ tail.take stop)
    | none => trimChars text
  | none => trimChars text

/-- `extractJavaScript(text)`. -/
def extractJavaScript (text : List Char) : List Char :=
  match firstOcc fence text with
  | some i =>
    let content := (dropLangTag (text.drop (i + 3))).dropWhile jsWhitespace
    match firstOcc fence content with
    | some j => trimChars (content.take j)
    | none => extractFallback text
  | none => extractFallback text

/-- Modelled from the spec: "the extracted result equals the trimmed block
contents exactly, excluding the fence markers" — the raw text between the
first fence pair, to be compared with what `extractJavaScript` returns. -/
def specFirstFencedContents (text : List Char) : Option (List Char) :=
  match firstOcc fence text with
  | some i =>
    let rest := text.drop (i + 3)
    match firstOcc fence rest with
    | some j => some (rest.take j)
    | none => none
  | none => none

/-! ### The poll endpoint (`check-job.js`) -/

/-- The body of a poll response, at the JSON-value level: `record` carries
the stored job verbatim (`JSON.stringify` of exactly the stored value). -/
inductive CheckBody (J : Type) where
  | methodNotAllowed
  | missingJobId
  | stillProcessing
  | record (j : J)
deriving DecidableEq, Repr

/-- `check-job.js` handler over an abstract JSON store; store access is
modelled as total (the `catch`/500 path is store-failure only). -/
def checkJobHandler (method : String) (jobId? : Option String)
    (store : String → Option J) : Nat × CheckBody J :=
  if method ≠ "GET" then (405, CheckBody.methodNotAllowed)
  else
    match jobId? with
    | none => (400, CheckBody.missingJobId)
    | some jid =>
      if jid = "" then (400, CheckBody.missingJobId)
      else
        match store jid with
        | none => (200, CheckBody.stillProcessing)
        | some r => (200, CheckBody.record r)

/-! ### The background worker (`process-job-background.js`) -/

/-- A stored job record; absent JSON fields are `none`.  `α` is the type of
the caller-supplied `input` payload. -/
structure JobRecord (α : Type) where
  status : String
  input : Option α
  config : Option (List Char)
  error : Option String
  timestamp : Option Int
deriving DecidableEq, Repr

/-- `store.setJSON(id, r)`: replaces the whole record under `id`. -/
def setJSON (store : String → Option (JobRecord α)) (id : String) (r : JobRecord α) :
    String → Option (JobRecord α) :=
  fun k => if k = id then some r else store k

/-- Outcome of the outbound generation request: a parsed success body, an
error-shaped result (non-200 or unparsable body), or a rejection/throw that
reaches the worker's top-level catch. -/
inductive ClaudeOutcome where
  | ok (text : List Char)
  | apiError (e : String)
  | exn (msg : String)
deriving DecidableEq, Repr

/-- The worker's effect on the store, after `event.body` parsed to `jobId`:
load the job; not found → no write; missing key → error record; error-shaped
response → error record; success → completed record with the extracted
config.  A throw caught at the top level also produces the error record.
The outbound call itself is the `call` parameter. -/
def processJobWorker (jobId : String) (apiKey : Option String)
    (call : ClaudeOutcome) (now : Int)
    (store : String → Option (JobRecord α)) : String → Option (JobRecord α) :=
  match store jobId with
  | none => store
  | some _ =>
    match apiKey with
    | none =>
      setJSON store jobId ⟨"error", none, none, some "ANTHROPIC_API_KEY not configured", none⟩
    | some _ =>
      match call with
      | ClaudeOutcome.apiError e => setJSON store jobId ⟨"error", none, none, some e, none⟩
      | ClaudeOutcome.exn msg => setJSON store jobId ⟨"error", none, none, some msg, none⟩
      | ClaudeOutcome.ok text =>
        setJSON store jobId ⟨"completed", none, some (extractJavaScript text), none, some now⟩

/-- The descending run `[g, g - 1, …]` of length `n`, the grades visited by
the fill loop. -/
def descRange : Int → Nat → List Int
  | _, 0 => []
  | g, n + 1 => g :: descRange (g - 1) n

/-! ### Concrete instances used by witnesses and counterexamples -/

/-- `"9: 10\n5: 30"`: numeric input whose interpolated min marks ascend. -/
def cexAscText : List Char := ("9: 10\n5: 30").data

/-- `"hello world"`: non-empty input in which no tuple parses. -/
def cexNoParseText : List Char := ("hello world").data

/-- The spec's worked example input. -/
def exampleText : List Char := ("Grade 9: 36-40\nGrade 6: 24-28\nGrade 4: 16-20").data

/-- Letter-grade example input. -/
def letterText : List Char := ("A*: 80-100\nC: 50-60").data

/-- Known grades 9 ↦ 36-40 and 6 ↦ 24-28, as the fill loop's map. -/
def examplePairs : List (Int × NumBoundary) :=
  [(9, ⟨['9'], 9, 36, 40⟩), (6, ⟨['6'], 6, 24, 28⟩)]

/-- A fenced generation response with a `javascript` language tag. -/
def fencedResponse : List Char := ("```javascript" ++ "\nlet x = 1;\n" ++ "```").data

/-- The raw contents between that response's fence pair. -/
def fencedResponseRawContents : List Char := ("javascript" ++ "\nlet x = 1;\n").data

/-- A store holding one processing job, input `"inp"`, under id `"job1"`. -/
def cexStore : String → Option (JobRecord String) :=
  fun id => if id = "job1" then some ⟨"processing", some "inp", none, none, some 0⟩ else none

/-! ### Rounding lemmas -/

theorem jround_intCast (m : Int) : jround (m : ℚ) = m := by
  unfold jround
  rw [add_comm, Int.floor_add_int]
  norm_num

theorem jround_intCast_add (m : Int) (q : ℚ) : jround ((m : ℚ) + q) = m + jround q := by
  unfold jround
  have h : (m : ℚ) + q + 1 / 2 = q + 1 / 2 + (m : ℚ) := by ring
  rw [h, Int.floor_add_int, add_comm]

theorem jround_sub_one (q : ℚ) : jround (q - 1) = jround q - 1 := by
  unfold jround
  have h : q - 1 + 1 / 2 = q + 1 / 2 + ((-1 : Int) : ℚ) := by push_cast; ring
  rw [h, Int.floor_add_int]
  ring

theorem jround_int_add_sub_one (m : Int) (q : ℚ) :
    jround ((m : ℚ) + q - 1) = m + jround q - 1 := by
  have h : (m : ℚ) + q - 1 = (m : ℚ) + (q - 1) := by ring
  rw [h, jround_intCast_add, jround_sub_one]
  ring

/-! ### C3: behaviour on inputs with zero parsed tuples -/

/-- C3 (corrected): an empty or whitespace-only input yields `null`; a
non-empty input in which zero tuples parse is returned unchanged (as-is),
not `null`/empty, and in neither case is an error raised. -/
theorem c3_zero_parse_behaviour :
    (∀ (text : List Char) (t : Int), (trimChars text).isEmpty = true →
      processGradeBoundaries text t = none) ∧
    (∀ (text : List Char) (t : Int), (trimChars text).isEmpty = false →
      parseBoundaries text = [] → processGradeBoundaries text t = some text) := by
  constructor
  · intro text t h
    unfold processGradeBoundaries
    simp [h]
  · intro text t h hp
    unfold processGradeBoundaries
    simp [h, hp]

/-- C3 counterexample: `"hello world"` parses to zero tuples, yet the
function returns the text itself rather than `null`/empty. -/
theorem c3_counterexample :
    parseBoundaries cexNoParseText = [] ∧
    processGradeBoundaries cexNoParseText 40 = some cexNoParseText := by
  constructor
  · decide
  · decide

/-- Witness for `c3_zero_parse_behaviour` at concrete inputs. -/
theorem c3_witness :
    processGradeBoundaries [] 7 = none ∧
    processGradeBoundaries cexNoParseText 7 = some cexNoParseText :=
  ⟨c3_zero_parse_behaviour.1 [] 7 (by decide),
   c3_zero_parse_behaviour.2 cexNoParseText 7 (by decide) (by decide)⟩

/-! ### C5: identity scaling -/

/-- C5 (confirmed): scaling a table from maximum `M ≠ 0` to target maximum
`M` keeps every `minMarks` value. -/
theorem c5_identity_scale (bs : List SearchBoundary) (M : Int) (hM : M ≠ 0) :
    ∃ out, scaleBoundaries bs M M = Sum.inr out ∧
      out.map ScaledBoundary.minMarks = bs.map SearchBoundary.minMarks := by
  have hq : (M : ℚ) ≠ 0 := Int.cast_ne_zero.mpr hM
  unfold scaleBoundaries
  rw [if_neg hM]
  refine ⟨_, rfl, ?_⟩
  simp only [List.map_map]
  refine List.map_congr_left ?_
  intro b _
  simp only [Function.comp_apply]
  rw [div_self hq, mul_one, jround_intCast]

/-- Witness for `c5_identity_scale`. -/
theorem c5_witness :
    ∃ out, scaleBoundaries [⟨['9'], 36, some 40⟩] 40 40 = Sum.inr out ∧
      out.map ScaledBoundary.minMarks =
        List.map SearchBoundary.minMarks [⟨['9'], 36, some 40⟩] :=
  c5_identity_scale [⟨['9'], 36, some 40⟩] 40 (by decide)

/-! ### C8: the poll endpoint -/

/-- C8 (confirmed): non-GET → 405; GET without a job id → 400; GET for an
absent record → 200 with "still processing"; GET for a stored record → 200
with the record verbatim. -/
theorem c8_poll_endpoint {J : Type} :
    (∀ (m : String) (q : Option String) (store : String → Option J), m ≠ "GET" →
      checkJobHandler m q store = (405, CheckBody.methodNotAllowed)) ∧
    (∀ store : String → Option J,
      checkJobHandler "GET" none store = (400, CheckBody.missingJobId)) ∧
    (∀ (jid : String) (store : String → Option J), jid ≠ "" → store jid = none →
      checkJobHandler "GET" (some jid) store = (200, CheckBody.stillProcessing)) ∧
    (∀ (jid : String) (r : J) (store : String → Option J), jid ≠ "" → store jid = some r →
      checkJobHandler "GET" (some jid) store = (200, CheckBody.record r)) := by
  refine ⟨?_, ?_, ?_, ?_⟩
  · intro m q store hm
    unfold checkJobHandler
    rw [if_pos hm]
  · intro store
    unfold checkJobHandler
    simp
  · intro jid store hj hs
    unfold checkJobHandler
    simp [hj, hs]
  · intro jid r store hj hs
    unfold checkJobHandler
    simp [hj, hs]

/-- Witness for `c8_poll_endpoint` at concrete requests. -/
theorem c8_witness :
    checkJobHandler "POST" (some "j") (fun _ => (none : Option Nat)) =
      (405, CheckBody.methodNotAllowed) ∧
    checkJobHandler "GET" none (fun _ => (none : Option Nat)) =
      (400, CheckBody.missingJobId) ∧
    checkJobHandler "GET" (some "j") (fun _ => (none : Option Nat)) =
      (200, CheckBody.stillProcessing) ∧
    checkJobHandler "GET" (some "j") (fun _ => (some 3 : Option Nat)) =
      (200, CheckBody.record 3) :=
  ⟨c8_poll_endpoint.1 "POST" (some "j") _ (by decide),
   c8_poll_endpoint.2.1 _,
   c8_poll_endpoint.2.2.1 "j" _ (by decide) rfl,
   c8_poll_endpoint.2.2.2 "j" 3 _ (by decide) rfl⟩

/-! ### C9: worker on a nonexistent job id -/

/-- C9 (confirmed): when the job id names no stored record the worker leaves
the store untouched (and, being a total function of its inputs, raises
nothing). -/
theorem c9_missing_job_no_write {α : Type} (jobId : String) (apiKey : Option String)
    (call : ClaudeOutcome) (now : Int) (store : String → Option (JobRecord α))
    (h : store jobId = none) :
    processJobWorker jobId apiKey call now store = store := by
  unfold processJobWorker
  rw [h]

/-- Witness for `c9_missing_job_no_write`. -/
theorem c9_witness :
    processJobWorker "missing" (some "k") (ClaudeOutcome.ok []) 3 cexStore = cexStore :=
  c9_missing_job_no_write "missing" (some "k") (ClaudeOutcome.ok []) 3 cexStore (by decide)

/-! ### C4: effect of the terminal transition on the stored record -/

/-- C4 counterexample: a completed run replaces the whole record; the
caller-supplied `input` (`some "inp"` at creation) is gone afterwards. -/
theorem c4_counterexample :
    (cexStore "job1").map JobRecord.input = some (some "inp") ∧
    ((processJobWorker "job1" (some "k") (ClaudeOutcome.ok (("x").data)) 5 cexStore)
        "job1").map JobRecord.input = some none := by
  constructor
  · decide
  · decide

/-- C4 (corrected): the terminal transition does not merge into the stored
record — it replaces it wholesale.  After success the record under the job id
is exactly `{status: "completed", config, timestamp}`; after an error-shaped
response it is exactly `{status: "error", error}`; the caller-supplied
`input` is not retained.  All other store keys are left intact. -/
theorem c4_terminal_transition {α : Type} (jobId : String) (key : String) (now : Int)
    (store : String → Option (JobRecord α)) (job : JobRecord α)
    (h : store jobId = some job) :
    (∀ text : List Char,
      (processJobWorker jobId (some key) (ClaudeOutcome.ok text) now store) jobId =
        some ⟨"completed", none, some (extractJavaScript text), none, some now⟩ ∧
      ∀ id : String, id ≠ jobId →
        (processJobWorker jobId (some key) (ClaudeOutcome.ok text) now store) id = store id) ∧
    (∀ e : String,
      (processJobWorker jobId (some key) (ClaudeOutcome.apiError e) now store) jobId =
        some ⟨"error", none, none, some e, none⟩ ∧
      ∀ id : String, id ≠ jobId →
        (processJobWorker jobId (some key) (ClaudeOutcome.apiError e) now store) id = store id) := by
  constructor
  · intro text
    constructor
    · unfold processJobWorker setJSON
      rw [h]
      simp
    · intro id hid
      unfold processJobWorker setJSON
      rw [h]
      simp [hid]
  · intro e
    constructor
    · unfold processJobWorker setJSON
      rw [h]
      simp
    · intro id hid
      unfold processJobWorker setJSON
      rw [h]
      simp [hid]

/-- Witness for `c4_terminal_transition` on the concrete one-job store. -/
theorem c4_witness :
    (processJobWorker "job1" (some "k") (ClaudeOutcome.ok (("x").data)) 5 cexStore) "job1" =
      some ⟨"completed", none, some (extractJavaScript (("x").data)), none, some 5⟩ ∧
    (processJobWorker "job1" (some "k") (ClaudeOutcome.ok (("x").data)) 5 cexStore) "other" =
      cexStore "other" :=
  ⟨((c4_terminal_transition "job1" "k" 5 cexStore
      ⟨"processing", some "inp", none, none, some 0⟩ (by decide)).1 (("x").data)).1,
   ((c4_terminal_transition "job1" "k" 5 cexStore
      ⟨"processing", some "inp", none, none, some 0⟩ (by decide)).1 (("x").data)).2
      "other" (by decide)⟩

/-! ### C2: the interpolation formula between two known neighbours -/

theorem floor_intCast_div_intCast (a b : Int) (hb : 0 < b) :
    ⌊(a : ℚ) / (b : ℚ)⌋ = a / b := by
  have h1 : ((b.toNat : ℕ) : ℤ) = b := Int.toNat_of_nonneg hb.le
  have h2 : ((b.toNat : ℕ) : ℚ) = (b : ℚ) := by exact_mod_cast congrArg (fun z : ℤ => (z : ℚ)) h1
  rw [← h2, Rat.floor_intCast_div_natCast, h1]

theorem roundRat_eq_jround (n d : Int) (hd : d ≠ 0) :
    roundRat n d = jround ((n : ℚ) / (d : ℚ)) := by
  have key : ∀ n' d' : Int, 0 < d' →
      (2 * n' + d') / (2 * d') = jround ((n' : ℚ) / (d' : ℚ)) := by
    intro n' d' hd'
    have hq : (d' : ℚ) ≠ 0 := Int.cast_ne_zero.mpr hd'.ne'
    have harg : (n' : ℚ) / (d' : ℚ) + 1 / 2 = ((2 * n' + d' : Int) : ℚ) / ((2 * d' : Int) : ℚ) := by
      push_cast
      field_simp
      ring
    unfold jround
    rw [harg, floor_intCast_div_intCast _ _ (by omega)]
  rcases lt_trichotomy d 0 with hneg | hzero | hpos
  · unfold roundRat
    rw [if_neg (by omega), if_pos hneg]
    have hflip : ((-n : Int) : ℚ) / ((-d : Int) : ℚ) = (n : ℚ) / (d : ℚ) := by
      rw [Int.cast_neg, Int.cast_neg, neg_div_neg_eq]
    calc (2 * -n + -d) / (2 * -d) = jround (((-n : Int) : ℚ) / ((-d : Int) : ℚ)) :=
          key (-n) (-d) (by omega)
      _ = jround ((n : ℚ) / (d : ℚ)) := by rw [hflip]
  · exact absurd hzero hd
  · unfold roundRat
    rw [if_pos hpos]
    exact key n d hpos

theorem interpBetween_minMark (g a b : Int) (ub lb : NumBoundary) (hab : a ≠ b) :
    (interpBetween g a b ub lb).minMark =
      jround ((ub.minMark : ℚ) - ((a - g : Int) : ℚ) *
        (((ub.minMark - lb.minMark : Int) : ℚ) / ((a - b : Int) : ℚ))) := by
  have hd : a - b ≠ 0 := sub_ne_zero.mpr hab
  have hq : (a : ℚ) - (b : ℚ) ≠ 0 := sub_ne_zero.mpr (by exact_mod_cast hab)
  show roundRat (ub.minMark * (a - b) - (a - g) * (ub.minMark - lb.minMark)) (a - b) = _
  rw [roundRat_eq_jround _ _ hd]
  congr 1
  push_cast
  field_simp

theorem interpBetween_maxMark (g a b : Int) (ub lb : NumBoundary) (hab : a ≠ b) :
    (interpBetween g a b ub lb).maxMark =
      jround (((interpBetween g a b ub lb).minMark : ℚ) +
        ((ub.minMark - lb.minMark : Int) : ℚ) / ((a - b : Int) : ℚ) - 1) := by
  have hd : a - b ≠ 0 := sub_ne_zero.mpr hab
  have hq : (a : ℚ) - (b : ℚ) ≠ 0 := sub_ne_zero.mpr (by exact_mod_cast hab)
  show roundRat (((interpBetween g a b ub lb).minMark - 1) * (a - b) +
      (ub.minMark - lb.minMark)) (a - b) = _
  rw [roundRat_eq_jround _ _ hd]
  congr 1
  push_cast
  field_simp
  ring

/-- C2 (confirmed): for a missing grade `g` strictly between its nearest
known grades `a` above and `b` below, `interpolateGrade` returns exactly the
spec's values: with `markPerGrade = (ub.minMark − lb.minMark) / (a − b)`, the
minimum mark is `round(ub.minMark − (a − g)·markPerGrade)` and the maximum
mark equals `minMark + round(markPerGrade) − 1`, in exact rational arithmetic
with half-up rounding. -/
theorem c2_interpolation_formula (g t a b : Int) (pairs : List (Int × NumBoundary))
    (ub lb : NumBoundary)
    (ha : nearestAbove (ksOf pairs) g = some a)
    (hb : nearestBelow (ksOf pairs) g = some b)
    (hga : g < a) (hbg : b < g)
    (hua : mapGet pairs a = some ub)
    (hlb : mapGet pairs b = some lb) :
    ∃ e, interpolateGrade g pairs t = some e ∧
      e.minMark = jround ((ub.minMark : ℚ) - ((a - g : Int) : ℚ) *
        (((ub.minMark - lb.minMark : Int) : ℚ) / ((a - b : Int) : ℚ))) ∧
      e.maxMark = e.minMark +
        jround (((ub.minMark - lb.minMark : Int) : ℚ) / ((a - b : Int) : ℚ)) - 1 := by
  have hab : a ≠ b := ne_of_gt (lt_trans hbg hga)
  refine ⟨interpBetween g a b ub lb, ?_, ?_, ?_⟩
  · unfold interpolateGrade
    dsimp only
    rw [ha, hb]
    dsimp only
    rw [hua, hlb]
  · exact interpBetween_minMark g a b ub lb hab
  · rw [interpBetween_maxMark g a b ub lb hab, interpBetween_minMark g a b ub lb hab,
      jround_int_add_sub_one]

/-- Witness for `c2_interpolation_formula`: grade 8 between 9 ↦ 36-40 and
6 ↦ 24-28, with the concrete result 32-35. -/
theorem c2_witness :
    (∃ e, interpolateGrade 8 examplePairs 40 = some e ∧
      e.minMark = jround ((36 : ℚ) - ((9 - 8 : Int) : ℚ) *
        (((36 - 24 : Int) : ℚ) / ((9 - 6 : Int) : ℚ))) ∧
      e.maxMark = e.minMark +
        jround (((36 - 24 : Int) : ℚ) / ((9 - 6 : Int) : ℚ)) - 1) ∧
    interpolateGrade 8 examplePairs 40 = some ⟨intToChars 8, 8, 32, 35⟩ := by
  constructor
  · exact c2_interpolation_formula 8 40 9 6 examplePairs ⟨['9'], 9, 36, 40⟩ ⟨['6'], 6, 24, 28⟩
      (by decide) (by decide) (by decide) (by decide) (by decide) (by decide)
  · decide

/-! ### Sorting lemmas -/

theorem insertBy_perm (r : α → α → Bool) (a : α) (l : List α) :
    (insertBy r a l).Perm (a :: l) := by
  induction l with
  | nil => simp [insertBy]
  | cons b bs ih =>
    unfold insertBy
    by_cases h : r a b = true
    · rw [if_pos h]
    · rw [if_neg h]
      exact (List.Perm.cons b ih).trans (List.Perm.swap a b bs)

theorem sortBy_perm (r : α → α → Bool) (l : List α) : (sortBy r l).Perm l := by
  induction l with
  | nil => simp [sortBy]
  | cons a as ih =>
    unfold sortBy
    exact (insertBy_perm r a (sortBy r as)).trans (List.Perm.cons a ih)

theorem insertBy_key_sorted (f : α → Int) (a : α) (l : List α)
    (hl : l.Pairwise (fun x y => f y ≤ f x)) :
    (insertBy (fun x y => f y ≤ f x) a l).Pairwise (fun x y => f y ≤ f x) := by
  induction l with
  | nil => simp [insertBy]
  | cons b bs ih =>
    rcases List.pairwise_cons.mp hl with ⟨hb, hbs⟩
    unfold insertBy
    by_cases h : f b ≤ f a
    · rw [if_pos (by simpa using h)]
      refine List.pairwise_cons.mpr ⟨?_, hl⟩
      intro c hc
      rcases List.mem_cons.mp hc with rfl | hc2
      · exact h
      · exact le_trans (hb c hc2) h
    · rw [if_neg (by simpa using h)]
      refine List.pairwise_cons.mpr ⟨?_, ih hbs⟩
      intro c hc
      have hmem : c ∈ a :: bs := (insertBy_perm _ a bs).mem_iff.mp hc
      rcases List.mem_cons.mp hmem with rfl | hm
      · exact le_of_lt (lt_of_not_le h)
      · exact hb c hm

theorem sortBy_key_sorted (f : α → Int) (l : List α) :
    (sortBy (fun x y => f y ≤ f x) l).Pairwise (fun x y => f y ≤ f x) := by
  induction l with
  | nil => simp [sortBy]
  | cons a as ih =>
    unfold sortBy
    exact insertBy_key_sorted f a _ ih

theorem sortBoundaries_perm (bs : List RawBoundary) : (sortBoundaries bs).Perm bs :=
  sortBy_perm _ bs

theorem sortBoundaries_sorted (bs : List RawBoundary) :
    (sortBoundaries bs).Pairwise (fun x y => y.minMark ≤ x.minMark) :=
  sortBy_key_sorted (fun b => b.minMark) bs

/-! ### Blank-input lemmas -/

theorem mem_splitNl_sublist (s : List Char) : ∀ p ∈ splitNl s, p.Sublist s := by
  induction s with
  | nil =>
    intro p hp
    unfold splitNl at hp
    rcases List.mem_singleton.mp hp with rfl
    exact List.Sublist.refl _
  | cons c rest ih =>
    intro p hp
    unfold splitNl at hp
    rcases hsp : splitNl rest with _ | ⟨l, ls⟩
    · rw [hsp] at hp
      dsimp only at hp
      rcases List.mem_singleton.mp hp with rfl
      exact List.nil_sublist _
    · rw [hsp] at hp
      dsimp only at hp
      by_cases hc : c = '\n'
      · rw [if_pos hc] at hp
        rcases List.mem_cons.mp hp with rfl | hp2
        · exact List.nil_sublist _
        · exact (ih p (hsp ▸ hp2)).cons c
      · rw [if_neg hc] at hp
        rcases List.mem_cons.mp hp with rfl | hp2
        · exact (ih l (hsp ▸ List.mem_cons_self l ls)).cons₂ c
        · exact (ih p (hsp ▸ List.mem_cons_of_mem l hp2)).cons c

theorem trimChars_eq_nil_iff (s : List Char) :
    trimChars s = [] ↔ ∀ c ∈ s, jsWhitespace c = true := by
  unfold trimChars
  rw [List.reverse_eq_nil_iff, List.dropWhile_eq_nil_iff]
  constructor
  · intro h c hc
    by_cases hmem : c ∈ s.dropWhile jsWhitespace
    · exact h c (List.mem_reverse.mpr hmem)
    · have hsplit := List.takeWhile_append_dropWhile jsWhitespace s
      rw [← hsplit] at hc
      rcases List.mem_append.mp hc with htk | hdrp
      · exact List.mem_takeWhile_imp htk
      · exact absurd hdrp hmem
  · intro h c hc
    exact h c ((List.dropWhile_sublist _).subset (List.mem_reverse.mp hc))

theorem parse_nonempty_trim (text : List Char) (h : parseBoundaries text ≠ []) :
    (trimChars text).isEmpty = false := by
  cases hb : (trimChars text).isEmpty with
  | false => rfl
  | true =>
  exfalso
  have htrim : trimChars text = [] := List.isEmpty_iff.mp hb
  have hallws : ∀ c ∈ text, jsWhitespace c = true := (trimChars_eq_nil_iff text).mp htrim
  apply h
  unfold parseBoundaries
  rw [List.filterMap_eq_nil_iff]
  intro l hl
  exfalso
  rcases List.mem_filter.mp hl with ⟨hmap, hlne⟩
  rcases List.mem_map.mp hmap with ⟨p, hpmem, rfl⟩
  have : trimChars p = [] := by
    rw [trimChars_eq_nil_iff]
    intro c hc
    exact hallws c ((mem_splitNl_sublist text p hpmem).subset hc)
  rw [this] at hlne
  simp at hlne

/-! ### C6: letter-grade inputs skip interpolation -/

/-- C6 (confirmed): when the parsed grade tokens are not all numeric, the
output is exactly the parsed boundaries, reordered descending by `minMark`
and otherwise unchanged, formatted one per line. -/
theorem c6_letter_grades (text : List Char) (t : Int)
    (hne : parseBoundaries text ≠ [])
    (hnum : isAllNumeric (sortBoundaries (parseBoundaries text)) = false) :
    processGradeBoundaries text t =
      some (joinNl ((sortBoundaries (parseBoundaries text)).map formatRaw)) ∧
    (sortBoundaries (parseBoundaries text)).Perm (parseBoundaries text) ∧
    (sortBoundaries (parseBoundaries text)).Pairwise
      (fun x y => y.minMark ≤ x.minMark) := by
  refine ⟨?_, sortBoundaries_perm _, sortBoundaries_sorted _⟩
  unfold processGradeBoundaries
  rw [parse_nonempty_trim text hne]
  have hpe : (parseBoundaries text).isEmpty = false := by
    rcases hp : parseBoundaries text with _ | ⟨b, bs⟩
    · exact absurd hp hne
    · rfl
  rw [hpe, hnum]
  simp

/-- Witness for `c6_letter_grades` on the letter-grade example. -/
theorem c6_witness :
    processGradeBoundaries letterText 100 =
      some (joinNl ((sortBoundaries (parseBoundaries letterText)).map formatRaw)) ∧
    (sortBoundaries (parseBoundaries letterText)).Perm (parseBoundaries letterText) ∧
    (sortBoundaries (parseBoundaries letterText)).Pairwise
      (fun x y => y.minMark ≤ x.minMark) :=
  c6_letter_grades letterText 100 (by decide) (by decide)

/-! ### Map, key and extremum lemmas -/

theorem mapGet_some_mem {α : Type} (ps : List (Int × α)) (k : Int) (v : α)
    (h : mapGet ps k = some v) : (k, v) ∈ ps := by
  induction ps with
  | nil => simp [mapGet] at h
  | cons p rest ih =>
    rcases p with ⟨k', v'⟩
    unfold mapGet at h
    rcases hr : mapGet rest k with _ | w
    · rw [hr] at h
      dsimp only at h
      by_cases hk : k' = k
      · rw [if_pos hk] at h
        rcases Option.some_inj.mp h with rfl
        rcases hk with rfl
        exact List.mem_cons_self _ _
      · rw [if_neg hk] at h
        exact absurd h (by simp)
    · rw [hr] at h
      dsimp only at h
      rcases Option.some_inj.mp h with rfl
      exact List.mem_cons_of_mem _ (ih hr)

theorem mapGet_isSome_of_mem {α : Type} (ps : List (Int × α)) (k : Int)
    (h : k ∈ ps.map Prod.fst) : mapGet ps k ≠ none := by
  induction ps with
  | nil => simp at h
  | cons p rest ih =>
    rcases p with ⟨k', v'⟩
    unfold mapGet
    rcases hr : mapGet rest k with _ | w
    · dsimp only
      rcases List.mem_cons.mp h with hk | hk
      · rw [if_pos hk.symm]
        simp
      · exact absurd hr (ih hk)
    · simp

theorem mem_dedupAux (seen l : List Int) (x : Int) :
    x ∈ dedupAux seen l ↔ x ∈ l ∧ x ∉ seen := by
  induction l generalizing seen with
  | nil => simp [dedupAux]
  | cons k ks ih =>
    unfold dedupAux
    by_cases hk : k ∈ seen
    · rw [if_pos hk, ih]
      constructor
      · intro ⟨h1, h2⟩
        exact ⟨List.mem_cons_of_mem _ h1, h2⟩
      · intro ⟨h1, h2⟩
        rcases List.mem_cons.mp h1 with rfl | h1
        · exact absurd hk h2
        · exact ⟨h1, h2⟩
    · rw [if_neg hk]
      constructor
      · intro hmem
        rcases List.mem_cons.mp hmem with rfl | hmem
        · exact ⟨List.mem_cons_self _ _, hk⟩
        · rcases (ih (k :: seen)).mp hmem with ⟨h1, h2⟩
          exact ⟨List.mem_cons_of_mem _ h1,
            fun hs => h2 (List.mem_cons_of_mem _ hs)⟩
      · intro ⟨h1, h2⟩
        rcases List.mem_cons.mp h1 with rfl | h1
        · exact List.mem_cons_self _ _
        · by_cases hxk : x = k
          · rcases hxk with rfl
            exact List.mem_cons_self _ _
          · exact List.mem_cons_of_mem _ ((ih (k :: seen)).mpr
              ⟨h1, fun hs => by
                rcases List.mem_cons.mp hs with h | h
                · exact hxk h
                · exact h2 h⟩)

theorem mem_dedupKeys (l : List Int) (x : Int) : x ∈ dedupKeys l ↔ x ∈ l := by
  unfold dedupKeys
  rw [mem_dedupAux]
  simp

theorem mem_ksOf (pairs : List (Int × NumBoundary)) (x : Int) :
    x ∈ ksOf pairs ↔ x ∈ pairs.map Prod.fst := by
  unfold ksOf sortIntDesc
  rw [(sortBy_perm _ _).mem_iff, mem_dedupKeys]

theorem nearestAbove_some (ks : List Int) (g a : Int)
    (h : nearestAbove ks g = some a) : a ∈ ks ∧ g < a := by
  unfold nearestAbove at h
  suffices haux : ∀ (l : List Int) (acc : Option Int),
      List.foldl (fun acc k =>
        if g < k then
          match acc with
          | none => some k
          | some a => if k < a then some k else some a
        else acc) acc l = some a →
      acc = some a ∨ (a ∈ l ∧ g < a) by
    rcases haux ks none h with hacc | hgood
    · exact absurd hacc (by simp)
    · exact hgood
  intro l
  induction l with
  | nil =>
    intro acc hacc
    exact Or.inl hacc
  | cons k rest ih =>
    intro acc hacc
    rw [List.foldl_cons] at hacc
    rcases ih _ hacc with hstep | hgood
    · by_cases hg : g < k
      · rw [if_pos hg] at hstep
        rcases hget : acc with _ | x
        · rw [hget] at hstep
          dsimp only at hstep
          rcases Option.some_inj.mp hstep with rfl
          exact Or.inr ⟨List.mem_cons_self _ _, hg⟩
        · rw [hget] at hstep
          dsimp only at hstep
          by_cases hkx : k < x
          · rw [if_pos hkx] at hstep
            rcases Option.some_inj.mp hstep with rfl
            exact Or.inr ⟨List.mem_cons_self _ _, hg⟩
          · rw [if_neg hkx] at hstep
            exact Or.inl hstep
      · rw [if_neg hg] at hstep
        exact Or.inl hstep
    · exact Or.inr ⟨List.mem_cons_of_mem _ hgood.1, hgood.2⟩

theorem nearestAbove_ne_none (ks : List Int) (g k : Int)
    (hk : k ∈ ks) (hgk : g < k) : nearestAbove ks g ≠ none := by
  unfold nearestAbove
  suffices haux : ∀ (l : List Int) (acc : Option Int),
      (acc ≠ none ∨ ∃ x ∈ l, g < x) →
      List.foldl (fun acc k =>
        if g < k then
          match acc with
          | none => some k
          | some a => if k < a then some k else some a
        else acc) acc l ≠ none from
    haux ks none (Or.inr ⟨k, hk, hgk⟩)
  intro l
  induction l with
  | nil =>
    intro acc hacc
    rcases hacc with h | h
    · simpa using h
    · simp at h
  | cons c rest ih =>
    intro acc hacc
    rw [List.foldl_cons]
    by_cases hg : g < c
    · rw [if_pos hg]
      apply ih
      left
      rcases acc with _ | x
      · simp
      · simp only
        by_cases hcx : c < x
        · rw [if_pos hcx]
          simp
        · rw [if_neg hcx]
          simp
    · rw [if_neg hg]
      apply ih
      rcases hacc with h | ⟨x, hx, hgx⟩
      · exact Or.inl h
      · rcases List.mem_cons.mp hx with rfl | hx2
        · exact absurd hgx hg
        · exact Or.inr ⟨x, hx2, hgx⟩

theorem nearestBelow_some (ks : List Int) (g b : Int)
    (h : nearestBelow ks g = some b) : b ∈ ks ∧ b < g := by
  unfold nearestBelow at h
  suffices haux : ∀ (l : List Int) (acc : Option Int),
      List.foldl (fun acc k =>
        if k < g then
          match acc with
          | none => some k
          | some b => if b < k then some k else some b
        else acc) acc l = some b →
      acc = some b ∨ (b ∈ l ∧ b < g) by
    rcases haux ks none h with hacc | hgood
    · exact absurd hacc (by simp)
    · exact hgood
  intro l
  induction l with
  | nil =>
    intro acc hacc
    exact Or.inl hacc
  | cons k rest ih =>
    intro acc hacc
    rw [List.foldl_cons] at hacc
    rcases ih _ hacc with hstep | hgood
    · by_cases hg : k < g
      · rw [if_pos hg] at hstep
        rcases hget : acc with _ | x
        · rw [hget] at hstep
          dsimp only at hstep
          rcases Option.some_inj.mp hstep with rfl
          exact Or.inr ⟨List.mem_cons_self _ _, hg⟩
        · rw [hget] at hstep
          dsimp only at hstep
          by_cases hkx : x < k
          · rw [if_pos hkx] at hstep
            rcases Option.some_inj.mp hstep with rfl
            exact Or.inr ⟨List.mem_cons_self _ _, hg⟩
          · rw [if_neg hkx] at hstep
            exact Or.inl hstep
      · rw [if_neg hg] at hstep
        exact Or.inl hstep
    · exact Or.inr ⟨List.mem_cons_of_mem _ hgood.1, hgood.2⟩

theorem nearestBelow_ne_none (ks : List Int) (g k : Int)
    (hk : k ∈ ks) (hgk : k < g) : nearestBelow ks g ≠ none := by
  unfold nearestBelow
  suffices haux : ∀ (l : List Int) (acc : Option Int),
      (acc ≠ none ∨ ∃ x ∈ l, x < g) →
      List.foldl (fun acc k =>
        if k < g then
          match acc with
          | none => some k
          | some b => if b < k then some k else some b
        else acc) acc l ≠ none from
    haux ks none (Or.inr ⟨k, hk, hgk⟩)
  intro l
  induction l with
  | nil =>
    intro acc hacc
    rcases hacc with h | h
    · simpa using h
    · simp at h
  | cons c rest ih =>
    intro acc hacc
    rw [List.foldl_cons]
    by_cases hg : c < g
    · rw [if_pos hg]
      apply ih
      left
      rcases acc with _ | x
      · simp
      · simp only
        by_cases hcx : x < c
        · rw [if_pos hcx]
          simp
        · rw [if_neg hcx]
          simp
    · rw [if_neg hg]
      apply ih
      rcases hacc with h | ⟨x, hx, hgx⟩
      · exact Or.inl h
      · rcases List.mem_cons.mp hx with rfl | hx2
        · exact absurd hgx hg
        · exact Or.inr ⟨x, hx2, hgx⟩

theorem foldl_max_mem (xs : List Int) : ∀ x : Int, xs.foldl max x ∈ x :: xs := by
  induction xs with
  | nil => intro x; simp
  | cons y ys ih =>
    intro x
    rw [List.foldl_cons]
    rcases List.mem_cons.mp (ih (max x y)) with hm | hm
    · rcases max_choice x y with hc | hc
      · rw [hm, hc]
        exact List.mem_cons_self _ _
      · rw [hm, hc]
        exact List.mem_cons_of_mem _ (List.mem_cons_self _ _)
    · exact List.mem_cons_of_mem _ (List.mem_cons_of_mem _ hm)

theorem le_foldl_max (xs : List Int) : ∀ (x y : Int), y ∈ x :: xs → y ≤ xs.foldl max x := by
  induction xs with
  | nil =>
    intro x y hy
    rcases List.mem_cons.mp hy with rfl | h
    · simp
    · simp at h
  | cons z zs ih =>
    intro x y hy
    rw [List.foldl_cons]
    rcases List.mem_cons.mp hy with rfl | h
    · exact le_trans (le_max_left y z) (ih (max y z) _ (List.mem_cons_self _ _))
    · rcases List.mem_cons.mp h with rfl | h2
      · exact le_trans (le_max_right x y) (ih (max x y) _ (List.mem_cons_self _ _))
      · exact ih (max x z) y (List.mem_cons_of_mem _ h2)

theorem foldl_min_mem (xs : List Int) : ∀ x : Int, xs.foldl min x ∈ x :: xs := by
  induction xs with
  | nil => intro x; simp
  | cons y ys ih =>
    intro x
    rw [List.foldl_cons]
    rcases List.mem_cons.mp (ih (min x y)) with hm | hm
    · rcases min_choice x y with hc | hc
      · rw [hm, hc]
        exact List.mem_cons_self _ _
      · rw [hm, hc]
        exact List.mem_cons_of_mem _ (List.mem_cons_self _ _)
    · exact List.mem_cons_of_mem _ (List.mem_cons_of_mem _ hm)

theorem foldl_min_le (xs : List Int) : ∀ (x y : Int), y ∈ x :: xs → xs.foldl min x ≤ y := by
  induction xs with
  | nil =>
    intro x y hy
    rcases List.mem_cons.mp hy with rfl | h
    · simp
    · simp at h
  | cons z zs ih =>
    intro x y hy
    rw [List.foldl_cons]
    rcases List.mem_cons.mp hy with rfl | h
    · exact le_trans (ih (min y z) _ (List.mem_cons_self _ _)) (min_le_left y z)
    · rcases List.mem_cons.mp h with rfl | h2
      · exact le_trans (ih (min x y) _ (List.mem_cons_self _ _)) (min_le_right x y)
      · exact ih (min x z) y (List.mem_cons_of_mem _ h2)

theorem listMax_mem (l : List Int) (h : l ≠ []) : listMax l ∈ l := by
  rcases l with _ | ⟨x, xs⟩
  · exact absurd rfl h
  · exact foldl_max_mem xs x

theorem le_listMax (l : List Int) (y : Int) (h : y ∈ l) : y ≤ listMax l := by
  rcases l with _ | ⟨x, xs⟩
  · simp at h
  · exact le_foldl_max xs x y h

theorem listMin_mem (l : List Int) (h : l ≠ []) : listMin l ∈ l := by
  rcases l with _ | ⟨x, xs⟩
  · exact absurd rfl h
  · exact foldl_min_mem xs x

theorem listMin_le (l : List Int) (y : Int) (h : y ∈ l) : listMin l ≤ y := by
  rcases l with _ | ⟨x, xs⟩
  · simp at h
  · exact foldl_min_le xs x y h

/-! ### The fill loop on numeric input -/

theorem fillGrades_zero (pairs : List (Int × NumBoundary)) (t g : Int) :
    fillGrades pairs t g 0 = [] := rfl

theorem fillGrades_succ (pairs : List (Int × NumBoundary)) (t g : Int) (n : Nat) :
    fillGrades pairs t g (n + 1) =
      (match mapGet pairs g with
       | some b => [b]
       | none => (interpolateGrade g pairs t).toList) ++
      fillGrades pairs t (g - 1) n := rfl

/-- A grade with known grades on both sides is settled by the interpolation
branch: both nearest neighbours exist, their map entries exist, and the
result is `interpBetween`, for every `totalMarks`. -/
theorem interp_branch1 (pairs : List (Int × NumBoundary)) (g : Int)
    (ha : ∃ k ∈ ksOf pairs, g < k) (hb : ∃ k ∈ ksOf pairs, k < g) :
    ∃ a b ub lb,
      nearestAbove (ksOf pairs) g = some a ∧
      nearestBelow (ksOf pairs) g = some b ∧
      mapGet pairs a = some ub ∧ mapGet pairs b = some lb ∧
      g < a ∧ b < g ∧
      ∀ t : Int, interpolateGrade g pairs t = some (interpBetween g a b ub lb) := by
  obtain ⟨k1, hk1, hgk1⟩ := ha
  obtain ⟨k2, hk2, hk2g⟩ := hb
  have hne1 := nearestAbove_ne_none (ksOf pairs) g k1 hk1 hgk1
  rcases hna : nearestAbove (ksOf pairs) g with _ | a
  · exact absurd hna hne1
  have hne2 := nearestBelow_ne_none (ksOf pairs) g k2 hk2 hk2g
  rcases hnb : nearestBelow (ksOf pairs) g with _ | b
  · exact absurd hnb hne2
  obtain ⟨hamem, hga⟩ := nearestAbove_some _ _ _ hna
  obtain ⟨hbmem, hbg⟩ := nearestBelow_some _ _ _ hnb
  have hga' : mapGet pairs a ≠ none := mapGet_isSome_of_mem _ _ ((mem_ksOf _ _).mp hamem)
  rcases hmga : mapGet pairs a with _ | ub
  · exact absurd hmga hga'
  have hgb' : mapGet pairs b ≠ none := mapGet_isSome_of_mem _ _ ((mem_ksOf _ _).mp hbmem)
  rcases hmgb : mapGet pairs b with _ | lb
  · exact absurd hmgb hgb'
  refine ⟨a, b, ub, lb, rfl, rfl, hmga, hmgb, hga, hbg, ?_⟩
  intro t
  unfold interpolateGrade
  dsimp only
  rw [hna, hnb]
  dsimp only
  rw [hmga, hmgb]

theorem fill_spec (pairs : List (Int × NumBoundary)) (t maxG minG : Int)
    (hpairs : ∀ k v, (k, v) ∈ pairs → NumBoundary.gradeNum v = k)
    (hmax : maxG ∈ pairs.map Prod.fst) (hmin : minG ∈ pairs.map Prod.fst) :
    ∀ (n : Nat) (g : Int), g ≤ maxG → minG ≤ g - (n : Int) + 1 →
      ((fillGrades pairs t g n).map (fun e => e.gradeNum) = descRange g n) ∧
      (∀ e ∈ fillGrades pairs t g n, ∀ kb, mapGet pairs e.gradeNum = some kb → e = kb) ∧
      (∀ e ∈ fillGrades pairs t g n, mapGet pairs e.gradeNum = none →
        ∃ a b ub lb,
          nearestAbove (ksOf pairs) e.gradeNum = some a ∧
          nearestBelow (ksOf pairs) e.gradeNum = some b ∧
          mapGet pairs a = some ub ∧ mapGet pairs b = some lb ∧
          e = interpBetween e.gradeNum a b ub lb) := by
  intro n
  induction n with
  | zero =>
    intro g _ _
    refine ⟨rfl, ?_, ?_⟩ <;> intro e he <;> simp [fillGrades_zero] at he
  | succ n ih =>
    intro g hg hwin
    have hwin' : minG ≤ g - 1 - (n : Int) + 1 := by
      push_cast at hwin ⊢
      omega
    have hg' : g - 1 ≤ maxG := by omega
    obtain ⟨ih1, ih2, ih3⟩ := ih (g - 1) hg' hwin'
    rcases hm : mapGet pairs g with _ | kb
    · -- missing grade: nearest known grades above and below exist
      have hnotkey : g ∉ pairs.map Prod.fst := fun hmem =>
        (mapGet_isSome_of_mem _ _ hmem) hm
      have hgmax : g < maxG := lt_of_le_of_ne hg (fun hEq => hnotkey (hEq ▸ hmax))
      have hming : minG < g := by
        have h1 : minG ≤ g := by
          push_cast at hwin
          omega
        exact lt_of_le_of_ne h1 (fun hEq => hnotkey (hEq ▸ hmin))
      obtain ⟨a, b, ub, lb, hna, hnb, hmga, hmgb, _, _, htind⟩ :=
        interp_branch1 pairs g
          ⟨maxG, (mem_ksOf _ _).mpr hmax, hgmax⟩
          ⟨minG, (mem_ksOf _ _).mpr hmin, hming⟩
      have hfill : fillGrades pairs t g (n + 1) =
          interpBetween g a b ub lb :: fillGrades pairs t (g - 1) n := by
        rw [fillGrades_succ, hm, htind t]
        rfl
      have hgnum : (interpBetween g a b ub lb).gradeNum = g := rfl
      refine ⟨?_, ?_, ?_⟩
      · rw [hfill]
        show (interpBetween g a b ub lb).gradeNum ::
          (fillGrades pairs t (g - 1) n).map (fun e => e.gradeNum) = descRange g (n + 1)
        rw [hgnum, ih1]
        rfl
      · intro e he kb' hkb'
        rw [hfill] at he
        rcases List.mem_cons.mp he with rfl | he2
        · rw [hgnum, hm] at hkb'
          exact absurd hkb' (by simp)
        · exact ih2 e he2 kb' hkb'
      · intro e he hnone
        rw [hfill] at he
        rcases List.mem_cons.mp he with rfl | he2
        · exact ⟨a, b, ub, lb, hna, hnb, hmga, hmgb, rfl⟩
        · exact ih3 e he2 hnone
    · -- known grade: the stored boundary is kept verbatim
      have hkbnum : kb.gradeNum = g := hpairs g kb (mapGet_some_mem _ _ _ hm)
      have hfill : fillGrades pairs t g (n + 1) = kb :: fillGrades pairs t (g - 1) n := by
        rw [fillGrades_succ, hm]
        rfl
      refine ⟨?_, ?_, ?_⟩
      · rw [hfill]
        show kb.gradeNum :: (fillGrades pairs t (g - 1) n).map (fun e => e.gradeNum) =
          descRange g (n + 1)
        rw [hkbnum, ih1]
        rfl
      · intro e he kb' hkb'
        rw [hfill] at he
        rcases List.mem_cons.mp he with rfl | he2
        · rw [hkbnum, hm] at hkb'
          exact Option.some_inj.mp hkb'

        · exact ih2 e he2 kb' hkb'
      · intro e he hnone
        rw [hfill] at he
        rcases List.mem_cons.mp he with rfl | he2
        · rw [hkbnum, hm] at hnone
          exact absurd hnone (by simp)
        · exact ih3 e he2 hnone

theorem fill_t_indep (pairs : List (Int × NumBoundary)) (maxG minG : Int)
    (hmax : maxG ∈ pairs.map Prod.fst) (hmin : minG ∈ pairs.map Prod.fst) :
    ∀ (n : Nat) (g : Int), g ≤ maxG → minG ≤ g - (n : Int) + 1 → ∀ t1 t2 : Int,
      fillGrades pairs t1 g n = fillGrades pairs t2 g n := by
  intro n
  induction n with
  | zero =>
    intro g _ _ t1 t2
    rfl
  | succ n ih =>
    intro g hg hwin t1 t2
    have hwin' : minG ≤ g - 1 - (n : Int) + 1 := by
      push_cast at hwin ⊢
      omega
    have hrest := ih (g - 1) (by omega) hwin' t1 t2
    rcases hm : mapGet pairs g with _ | kb
    · have hnotkey : g ∉ pairs.map Prod.fst := fun hmem =>
        (mapGet_isSome_of_mem _ _ hmem) hm
      have hgmax : g < maxG := lt_of_le_of_ne hg (fun hEq => hnotkey (hEq ▸ hmax))
      have hming : minG < g := by
        have h1 : minG ≤ g := by
          push_cast at hwin
          omega
        exact lt_of_le_of_ne h1 (fun hEq => hnotkey (hEq ▸ hmin))
      obtain ⟨a, b, ub, lb, _, _, _, _, _, _, htind⟩ :=
        interp_branch1 pairs g
          ⟨maxG, (mem_ksOf _ _).mpr hmax, hgmax⟩
          ⟨minG, (mem_ksOf _ _).mpr hmin, hming⟩
      rw [fillGrades_succ, fillGrades_succ, hm, htind t1, htind t2, hrest]
    · rw [fillGrades_succ, fillGrades_succ, hm, hrest]

/-! ### C1 and C10: the complete table on numeric input -/

theorem pairsOfText_keys (text : List Char) :
    (pairsOfText text).map Prod.fst =
      (numericBoundariesOf text).map (fun b => b.gradeNum) := by
  unfold pairsOfText
  rw [List.map_map]
  rfl

theorem pairsOfText_gradeNum (text : List Char) :
    ∀ k v, (k, v) ∈ pairsOfText text → NumBoundary.gradeNum v = k := by
  intro k v hmem
  unfold pairsOfText at hmem
  rcases List.mem_map.mp hmem with ⟨b, _, hEq⟩
  rcases Prod.mk.injEq _ _ _ _ ▸ hEq with ⟨h1, h2⟩
  rw [← h2, ← h1]

theorem gradeNums_ne_nil (text : List Char) (hne : parseBoundaries text ≠ []) :
    (numericBoundariesOf text).map (fun b => b.gradeNum) ≠ [] := by
  unfold numericBoundariesOf
  intro hcon
  have h1 := List.map_eq_nil_iff.mp hcon
  have h2 := List.map_eq_nil_iff.mp h1
  have hperm := sortBoundaries_perm (parseBoundaries text)
  rw [h2] at hperm
  exact hne (List.Perm.nil_eq hperm).symm

theorem numericContext (text : List Char) (hne : parseBoundaries text ≠ []) :
    maxGradeOf text ∈ (pairsOfText text).map Prod.fst ∧
    minGradeOf text ∈ (pairsOfText text).map Prod.fst ∧
    minGradeOf text ≤ maxGradeOf text := by
  have hkeys := pairsOfText_keys text
  have hnn := gradeNums_ne_nil text hne
  refine ⟨?_, ?_, ?_⟩
  · rw [hkeys]
    exact listMax_mem _ hnn
  · rw [hkeys]
    exact listMin_mem _ hnn
  · exact listMin_le _ _ (listMax_mem _ hnn)

/-- C1 counterexample: on `"9: 10\n5: 30"` every grade token is numeric and
at least one tuple parses, yet the completed sequence has ascending min
marks (10, 15, 20, 25, 30), so it is not strictly descending in `minMark`. -/
theorem c1_counterexample :
    parseBoundaries cexAscText ≠ [] ∧
    isAllNumeric (sortBoundaries (parseBoundaries cexAscText)) = true ∧
    processGradeBoundaries cexAscText 0 =
      some (joinNl ((numericFillOf cexAscText 0).map formatNum)) ∧
    (numericFillOf cexAscText 0).map (fun e => e.minMark) = [10, 15, 20, 25, 30] ∧
    ¬ List.Chain' (fun x y : Int => y < x)
      ((numericFillOf cexAscText 0).map (fun e => e.minMark)) := by
  refine ⟨by decide, by decide, by decide, by decide, ?_⟩
  intro hch
  have h4 : (numericFillOf cexAscText 0).map (fun e => e.minMark) =
      [10, 15, 20, 25, 30] := by decide
  rw [h4] at hch
  rcases List.chain'_cons.mp hch with ⟨h15, _⟩
  omega

/-- C1 (corrected): on numeric input with at least one parsed tuple the
output is the complete descending, gap-free grade sequence from the observed
maximum down to the observed minimum, each grade exactly once; grades whose
boundary was supplied keep the stored boundary verbatim, and each missing
grade is filled by linear interpolation between its nearest known neighbours
(`interpBetween`, see `interpBetween_minMark`/`interpBetween_maxMark`).  The
min marks need not descend strictly. -/
theorem c1_numeric_complete (text : List Char) (t : Int)
    (hne : parseBoundaries text ≠ [])
    (hnum : isAllNumeric (sortBoundaries (parseBoundaries text)) = true) :
    processGradeBoundaries text t =
      some (joinNl ((numericFillOf text t).map formatNum)) ∧
    (numericFillOf text t).map (fun e => e.gradeNum) =
      descRange (maxGradeOf text) (maxGradeOf text - minGradeOf text + 1).toNat ∧
    (∀ e ∈ numericFillOf text t, ∀ kb,
      mapGet (pairsOfText text) e.gradeNum = some kb → e = kb) ∧
    (∀ e ∈ numericFillOf text t, mapGet (pairsOfText text) e.gradeNum = none →
      ∃ a b ub lb,
        nearestAbove (ksOf (pairsOfText text)) e.gradeNum = some a ∧
        nearestBelow (ksOf (pairsOfText text)) e.gradeNum = some b ∧
        mapGet (pairsOfText text) a = some ub ∧
        mapGet (pairsOfText text) b = some lb ∧
        e = interpBetween e.gradeNum a b ub lb) := by
  obtain ⟨hmax, hmin, hmm⟩ := numericContext text hne
  have hcast : ((maxGradeOf text - minGradeOf text + 1).toNat : Int) =
      maxGradeOf text - minGradeOf text + 1 := Int.toNat_of_nonneg (by omega)
  have hwin : minGradeOf text ≤
      maxGradeOf text - ((maxGradeOf text - minGradeOf text + 1).toNat : Int) + 1 := by
    omega
  have hspec := fill_spec (pairsOfText text) t (maxGradeOf text) (minGradeOf text)
    (pairsOfText_gradeNum text) hmax hmin
    (maxGradeOf text - minGradeOf text + 1).toNat (maxGradeOf text) le_rfl hwin
  refine ⟨?_, hspec.1, hspec.2.1, hspec.2.2⟩
  unfold processGradeBoundaries
  rw [parse_nonempty_trim text hne]
  have hpe : (parseBoundaries text).isEmpty = false := by
    rcases hp : parseBoundaries text with _ | ⟨b, bs⟩
    · exact absurd hp hne
    · rfl
  rw [hpe, hnum]
  simp

/-- Witness for `c1_numeric_complete` on the spec's worked example. -/
theorem c1_witness :
    processGradeBoundaries exampleText 40 =
      some (joinNl ((numericFillOf exampleText 40).map formatNum)) ∧
    (numericFillOf exampleText 40).map (fun e => e.gradeNum) =
      descRange (maxGradeOf exampleText)
        (maxGradeOf exampleText - minGradeOf exampleText + 1).toNat ∧
    (∀ e ∈ numericFillOf exampleText 40, ∀ kb,
      mapGet (pairsOfText exampleText) e.gradeNum = some kb → e = kb) ∧
    (∀ e ∈ numericFillOf exampleText 40,
      mapGet (pairsOfText exampleText) e.gradeNum = none →
      ∃ a b ub lb,
        nearestAbove (ksOf (pairsOfText exampleText)) e.gradeNum = some a ∧
        nearestBelow (ksOf (pairsOfText exampleText)) e.gradeNum = some b ∧
        mapGet (pairsOfText exampleText) a = some ub ∧
        mapGet (pairsOfText exampleText) b = some lb ∧
        e = interpBetween e.gradeNum a b ub lb) :=
  c1_numeric_complete exampleText 40 (by decide) (by decide)

/-- C10 (confirmed): the fill loop only requests grades strictly between the
observed minimum and maximum known grades, so every `interpolateGrade` call
has known grades on both sides and lands in the interpolation branch — never
the two extrapolation branches or the `null` return — and the output of
`processGradeBoundaries` does not depend on `totalMarks` at all. -/
theorem c10_interpolation_safety :
    (∀ (text : List Char) (t1 t2 : Int),
      processGradeBoundaries text t1 = processGradeBoundaries text t2) ∧
    (∀ (pairs : List (Int × NumBoundary)) (g : Int),
      (∃ k ∈ ksOf pairs, g < k) → (∃ k ∈ ksOf pairs, k < g) →
      ∃ a b ub lb,
        nearestAbove (ksOf pairs) g = some a ∧
        nearestBelow (ksOf pairs) g = some b ∧
        mapGet pairs a = some ub ∧ mapGet pairs b = some lb ∧
        ∀ t : Int, interpolateGrade g pairs t = some (interpBetween g a b ub lb)) := by
  constructor
  · intro text t1 t2
    unfold processGradeBoundaries
    cases hb : (trimChars text).isEmpty with
    | true => simp
    | false =>
    cases hp : (parseBoundaries text).isEmpty with
    | true => simp
    | false =>
    cases hn : isAllNumeric (sortBoundaries (parseBoundaries text)) with
    | false => simp [hn]
    | true =>
    simp only [hn, Bool.false_eq_true, if_false, if_true]
    have hne : parseBoundaries text ≠ [] := by
      intro hcon
      rw [hcon] at hp
      simp at hp
    obtain ⟨hmax, hmin, hmm⟩ := numericContext text hne
    have hwin : minGradeOf text ≤
        maxGradeOf text - ((maxGradeOf text - minGradeOf text + 1).toNat : Int) + 1 := by
      have hcast : ((maxGradeOf text - minGradeOf text + 1).toNat : Int) =
          maxGradeOf text - minGradeOf text + 1 := Int.toNat_of_nonneg (by omega)
      omega
    have hind := fill_t_indep (pairsOfText text) (maxGradeOf text) (minGradeOf text)
      hmax hmin (maxGradeOf text - minGradeOf text + 1).toNat (maxGradeOf text)
      le_rfl hwin t1 t2
    unfold numericFillOf
    rw [hind]
  · intro pairs g ha hb
    obtain ⟨a, b, ub, lb, hna, hnb, hmga, hmgb, _, _, htind⟩ := interp_branch1 pairs g ha hb
    exact ⟨a, b, ub, lb, hna, hnb, hmga, hmgb, htind⟩

/-- Witness for `c10_interpolation_safety` at concrete inputs. -/
theorem c10_witness :
    processGradeBoundaries exampleText 40 = processGradeBoundaries exampleText 0 ∧
    (∃ a b ub lb,
      nearestAbove (ksOf examplePairs) 8 = some a ∧
      nearestBelow (ksOf examplePairs) 8 = some b ∧
      mapGet examplePairs a = some ub ∧ mapGet examplePairs b = some lb ∧
      ∀ t : Int, interpolateGrade 8 examplePairs t = some (interpBetween 8 a b ub lb)) :=
  ⟨c10_interpolation_safety.1 exampleText 40 0,
   c10_interpolation_safety.2 examplePairs 8 (by decide) (by decide)⟩

/-! ### C7: extraction of the generated code -/

theorem firstOcc_eq_some_iff (pat s : List Char) (i : Nat) :
    firstOcc pat s = some i ↔
      pat.isPrefixOf (s.drop i) = true ∧
      ∀ j < i, pat.isPrefixOf (s.drop j) = false := by
  induction s generalizing i with
  | nil =>
    unfold firstOcc
    by_cases hp : pat.isEmpty = true
    · rcases List.isEmpty_iff.mp hp with rfl
      rw [if_pos hp]
      constructor
      · intro h
        rcases Option.some_inj.mp h with rfl
        exact ⟨rfl, fun j hj => by omega⟩
      · intro ⟨h1, h2⟩
        by_cases hi : i = 0
        · rw [hi]
        · have hc := h2 0 (by omega)
          rw [List.drop_nil] at hc
          simp [List.isPrefixOf] at hc
    · rw [if_neg hp]
      have hpf : pat.isEmpty = false := by simpa using hp
      constructor
      · intro h
        simp at h
      · intro ⟨h1, _⟩
        rw [List.drop_nil] at h1
        rcases pat with _ | ⟨c, cs⟩
        · simp at hpf
        · simp [List.isPrefixOf] at h1
  | cons c rest ih =>
    unfold firstOcc
    by_cases hp : pat.isPrefixOf (c :: rest) = true
    · rw [if_pos hp]
      constructor
      · intro h
        rcases Option.some_inj.mp h with rfl
        exact ⟨hp, fun j hj => by omega⟩
      · intro ⟨h1, h2⟩
        by_cases hi : i = 0
        · rw [hi]
        · have hc := h2 0 (by omega)
          rw [List.drop_zero] at hc
          rw [hp] at hc
          exact absurd hc (by simp)
    · rw [if_neg hp]
      have hp' : pat.isPrefixOf (c :: rest) = false := by
        cases hpp : pat.isPrefixOf (c :: rest) with
        | false => rfl
        | true => exact absurd hpp hp
      constructor
      · intro h
        rcases Option.map_eq_some'.mp h with ⟨i', hi', rfl⟩
        obtain ⟨g1, g2⟩ := (ih i').mp hi'
        refine ⟨g1, ?_⟩
        intro j hj
        rcases j with _ | j'
        · exact hp'
        · exact g2 j' (by omega)
      · intro ⟨h1, h2⟩
        rcases i with _ | i'
        · rw [List.drop_zero] at h1
          rw [h1] at hp'
          exact absurd hp' (by simp)
        · have hrec : firstOcc pat rest = some i' := by
            rw [ih i']
            refine ⟨h1, ?_⟩
            intro j hj
            exact h2 (j + 1) (by omega)
          rw [hrec]
          rfl

theorem firstOcc_eq_none_iff (pat s : List Char) (hpat : pat ≠ []) :
    firstOcc pat s = none ↔ ∀ j, pat.isPrefixOf (s.drop j) = false := by
  induction s with
  | nil =>
    unfold firstOcc
    have hp : pat.isEmpty = false := by
      rcases pat with _ | _
      · exact absurd rfl hpat
      · rfl
    rw [if_neg (by simp [hp])]
    constructor
    · intro _ j
      rw [List.drop_nil]
      rcases pat with _ | ⟨c, cs⟩
      · exact absurd rfl hpat
      · rfl
    · intro _
      rfl
  | cons c rest ih =>
    unfold firstOcc
    by_cases hp : pat.isPrefixOf (c :: rest) = true
    · rw [if_pos hp]
      constructor
      · intro h
        simp at h
      · intro h
        have hc := h 0
        rw [List.drop_zero, hp] at hc
        exact absurd hc (by simp)
    · rw [if_neg hp]
      have hp' : pat.isPrefixOf (c :: rest) = false := by
        cases hpp : pat.isPrefixOf (c :: rest) with
        | false => rfl
        | true => exact absurd hpp hp
      constructor
      · intro h j
        have hrest : firstOcc pat rest = none := by
          rcases hr : firstOcc pat rest with _ | x
          · rfl
          · rw [hr] at h
            simp at h
        rcases j with _ | j'
        · exact hp'
        · exact (ih.mp hrest) j'
      · intro h
        have hrest : firstOcc pat rest = none := ih.mpr (fun j => h (j + 1))
        rw [hrest]
        rfl

theorem fence_prefix_intro (r : List Char) :
    fence.isPrefixOf (backtick :: backtick :: backtick :: r) = true := by
  simp [fence, List.isPrefixOf]

theorem fence_prefix_elim (l : List Char) (h : fence.isPrefixOf l = true) :
    ∃ r', l = backtick :: backtick :: backtick :: r' := by
  rcases l with _ | ⟨x, _ | ⟨y, _ | ⟨z, r⟩⟩⟩
  · simp [fence, List.isPrefixOf] at h
  · simp [fence, List.isPrefixOf] at h
  · simp [fence, List.isPrefixOf] at h
  · simp only [fence, List.isPrefixOf, Bool.and_eq_true, beq_iff_eq] at h
    obtain ⟨h1, h2, h3, _⟩ := h
    refine ⟨r, ?_⟩
    rw [← h1, ← h2, ← h3]

theorem getLast?_drop_ne_nil (s : List Char) (j : Nat) (h : s.drop j ≠ []) :
    s.getLast? = (s.drop j).getLast? := by
  conv_lhs => rw [← List.take_append_drop j s]
  rw [List.getLast?_append]
  rcases hd : (s.drop j).getLast? with _ | x
  · exact absurd (List.getLast?_eq_none_iff.mp hd) h
  · rfl

theorem firstOcc_fence_append (s r : List Char)
    (hfree : firstOcc fence s = none) (hlast : s.getLast? ≠ some backtick) :
    firstOcc fence (s ++ (fence ++ r)) = some s.length := by
  rw [firstOcc_eq_some_iff]
  constructor
  · rw [List.drop_left]
    exact fence_prefix_intro r
  · intro j hj
    cases hpp : fence.isPrefixOf ((s ++ (fence ++ r)).drop j) with
    | false => rfl
    | true =>
      exfalso
      rw [List.drop_append_of_le_length (le_of_lt hj)] at hpp
      obtain ⟨r', hr'⟩ := fence_prefix_elim _ hpp
      have hd : s.drop j ≠ [] := by
        intro hnil
        have hlen2 := congrArg List.length hnil
        rw [List.length_drop] at hlen2
        simp at hlen2
        omega
      rcases hds : s.drop j with _ | ⟨x, _ | ⟨y, _ | ⟨z, d⟩⟩⟩
      · exact hd hds
      · rw [hds] at hr'
        simp only [fence, List.cons_append, List.nil_append, List.cons.injEq] at hr'
        apply hlast
        rw [getLast?_drop_ne_nil s j hd, hds, hr'.1]
        rfl
      · rw [hds] at hr'
        simp only [fence, List.cons_append, List.nil_append, List.cons.injEq] at hr'
        apply hlast
        rw [getLast?_drop_ne_nil s j hd, hds, hr'.2.1]
        rfl
      · rw [hds] at hr'
        simp only [List.cons_append, List.cons.injEq] at hr'
        have hfz : fence.isPrefixOf (s.drop j) = true := by
          rw [hds, hr'.1, hr'.2.1, hr'.2.2.1]
          exact fence_prefix_intro d
        have := (firstOcc_eq_none_iff fence s (by decide)).mp hfree j
        rw [this] at hfz
        exact absurd hfz (by simp)

theorem firstOcc_none_suffix (pat : List Char) (hpat : pat ≠ []) (s t : List Char)
    (hsuf : t <:+ s) (h : firstOcc pat s = none) : firstOcc pat t = none := by
  obtain ⟨u, rfl⟩ := hsuf
  rw [firstOcc_eq_none_iff _ _ hpat] at h ⊢
  intro j
  have hj := h (u.length + j)
  rw [← List.drop_drop, List.drop_left] at hj
  exact hj

theorem getLast?_suffix_ne (s t : List Char) (hsuf : t <:+ s)
    (h : s.getLast? ≠ some backtick) : t.getLast? ≠ some backtick := by
  obtain ⟨u, rfl⟩ := hsuf
  intro hcontra
  apply h
  rw [List.getLast?_append, hcontra]
  rfl

theorem dropLangTag_suffix (s : List Char) : dropLangTag s <:+ s := by
  unfold dropLangTag
  by_cases h1 : ("javascript").data.isPrefixOf s = true
  · rw [if_pos h1]
    exact List.drop_suffix _ _
  · rw [if_neg h1]
    by_cases h2 : ("js").data.isPrefixOf s = true
    · rw [if_pos h2]
      exact List.drop_suffix _ _
    · rw [if_neg h2]

theorem tag_prefix_append (tag s r : List Char) (htag : backtick ∉ tag) :
    tag.isPrefixOf (s ++ backtick :: r) = tag.isPrefixOf s := by
  induction tag generalizing s with
  | nil => simp [List.isPrefixOf]
  | cons c cs ih =>
    rcases s with _ | ⟨d, s'⟩
    · have hc : c ≠ backtick := fun hEq => htag (hEq ▸ List.mem_cons_self c cs)
      show ((c == backtick) && cs.isPrefixOf r) = ((c :: cs).isPrefixOf [])
      rw [beq_eq_false_iff_ne.mpr hc]
      rfl
    · show ((c == d) && cs.isPrefixOf (s' ++ backtick :: r)) =
        ((c == d) && cs.isPrefixOf s')
      rw [ih s' (fun hm => htag (List.mem_cons_of_mem _ hm))]

theorem dropLangTag_append (mid r : List Char) :
    dropLangTag (mid ++ backtick :: r) = dropLangTag mid ++ backtick :: r := by
  unfold dropLangTag
  have hjs : backtick ∉ ("javascript").data := by decide
  have hjs2 : backtick ∉ ("js").data := by decide
  rw [tag_prefix_append _ _ _ hjs, tag_prefix_append _ _ _ hjs2]
  by_cases h1 : ("javascript").data.isPrefixOf mid = true
  · rw [if_pos h1, if_pos h1]
    have hlen : 10 ≤ mid.length := by
      have hpre := List.isPrefixOf_iff_prefix.mp h1
      simpa using hpre.length_le
    rw [List.drop_append_of_le_length hlen]
  · rw [if_neg h1, if_neg h1]
    by_cases h2 : ("js").data.isPrefixOf mid = true
    · rw [if_pos h2, if_pos h2]
      have hlen : 2 ≤ mid.length := by
        have hpre := List.isPrefixOf_iff_prefix.mp h2
        simpa using hpre.length_le
      rw [List.drop_append_of_le_length hlen]
    · rw [if_neg h2, if_neg h2]

theorem dropWhile_append_neg (p : Char → Bool) (s : List Char) (c : Char) (r : List Char)
    (hc : p c = false) :
    (s ++ c :: r).dropWhile p = s.dropWhile p ++ c :: r := by
  induction s with
  | nil =>
    show (c :: r).dropWhile p = c :: r
    rw [List.dropWhile_cons, hc]
    rfl
  | cons d s' ih =>
    show ((d :: (s' ++ c :: r)).dropWhile p) = (d :: s').dropWhile p ++ c :: r
    rw [List.dropWhile_cons, List.dropWhile_cons]
    by_cases hd : p d = true
    · rw [if_pos hd, if_pos hd]
      exact ih
    · rw [if_neg hd, if_neg hd]
      rfl

theorem dropWhile_idem (p : Char → Bool) (l : List Char) :
    (l.dropWhile p).dropWhile p = l.dropWhile p := by
  induction l with
  | nil => rfl
  | cons c l' ih =>
    rw [List.dropWhile_cons]
    by_cases hc : p c = true
    · rw [if_pos hc]
      exact ih
    · rw [if_neg hc, List.dropWhile_cons, if_neg hc]

theorem trimChars_dropWhile (s : List Char) :
    trimChars (s.dropWhile jsWhitespace) = trimChars s := by
  unfold trimChars
  rw [dropWhile_idem]

/-- C7 counterexample: on a `javascript`-tagged fenced response the function
returns the block with the language tag stripped, which differs from the
trimmed raw contents between the fence markers. -/
theorem c7_counterexample :
    specFirstFencedContents fencedResponse = some fencedResponseRawContents ∧
    extractJavaScript fencedResponse = ("let x = 1;").data ∧
    extractJavaScript fencedResponse ≠ trimChars fencedResponseRawContents := by
  refine ⟨by decide, by decide, by decide⟩

/-- C7 (corrected): `extractJavaScript` is a total function; on a text whose
first fenced block is well delimited it returns the trimmed contents of that
block, excluding the fence markers and an optional leading
`javascript`/`js` language tag; on a text with no fenced block and no
`window.ESSAY_CONFIG` marker it returns the raw text trimmed — never an
error. -/
theorem c7_extraction :
    (∀ pre mid post : List Char,
      firstOcc fence pre = none → pre.getLast? ≠ some backtick →
      firstOcc fence mid = none → mid.getLast? ≠ some backtick →
      extractJavaScript (pre ++ (fence ++ (mid ++ (fence ++ post)))) =
        trimChars (dropLangTag mid)) ∧
    (∀ text : List Char,
      (∀ i j, fence.isPrefixOf (text.drop i) = true →
        fence.isPrefixOf (text.drop j) = true → j < i + 3) →
      firstOcc configMarker text = none →
      extractJavaScript text = trimChars text) := by
  constructor
  · intro pre mid post hfp hlp hfm hlm
    have h1 : firstOcc fence (pre ++ (fence ++ (mid ++ (fence ++ post)))) =
        some pre.length := firstOcc_fence_append pre (mid ++ (fence ++ post)) hfp hlp
    unfold extractJavaScript
    rw [h1]
    dsimp only
    have hdrop : (pre ++ (fence ++ (mid ++ (fence ++ post)))).drop (pre.length + 3) =
        mid ++ (fence ++ post) := by
      rw [← List.append_assoc]
      have hfl : (pre ++ fence).length = pre.length + 3 := by simp [fence]
      rw [← hfl, List.drop_left]
    rw [hdrop]
    have hfp2 : fence ++ post = backtick :: backtick :: backtick :: post := rfl
    rw [hfp2, dropLangTag_append,
      dropWhile_append_neg _ _ _ _ (by decide : jsWhitespace backtick = false), ← hfp2]
    have hsuf : (dropLangTag mid).dropWhile jsWhitespace <:+ mid :=
      (List.dropWhile_suffix _).trans (dropLangTag_suffix mid)
    have hfc : firstOcc fence ((dropLangTag mid).dropWhile jsWhitespace) = none :=
      firstOcc_none_suffix fence (by decide) mid _ hsuf hfm
    have hlc : ((dropLangTag mid).dropWhile jsWhitespace).getLast? ≠ some backtick :=
      getLast?_suffix_ne mid _ hsuf hlm
    rw [firstOcc_fence_append _ post hfc hlc]
    dsimp only
    rw [List.take_left]
    exact trimChars_dropWhile (dropLangTag mid)
  · intro text hno hcm
    unfold extractJavaScript
    rcases hf : firstOcc fence text with _ | i
    · dsimp only
      unfold extractFallback
      rw [hcm]
    · dsimp only
      have his := (firstOcc_eq_some_iff fence text i).mp hf
      have hsuf : (dropLangTag (text.drop (i + 3))).dropWhile jsWhitespace <:+
          text.drop (i + 3) :=
        (List.dropWhile_suffix _).trans (dropLangTag_suffix _)
      obtain ⟨u, hu⟩ := hsuf
      have hcn : firstOcc fence ((dropLangTag (text.drop (i + 3))).dropWhile jsWhitespace)
          = none := by
        rcases hc : firstOcc fence ((dropLangTag (text.drop (i + 3))).dropWhile jsWhitespace)
          with _ | j
        · rfl
        · exfalso
          have hj := ((firstOcc_eq_some_iff fence _ j).mp hc).1
          have hcd : (dropLangTag (text.drop (i + 3))).dropWhile jsWhitespace =
              text.drop (i + 3 + u.length) := by
            have hdl : (u ++ (dropLangTag (text.drop (i + 3))).dropWhile jsWhitespace).drop
                u.length = (dropLangTag (text.drop (i + 3))).dropWhile jsWhitespace :=
              List.drop_left u _
            rw [hu] at hdl
            rw [← hdl, List.drop_drop]
          rw [hcd, List.drop_drop] at hj
          have := hno i (i + 3 + u.length + j) his.1 hj
          omega
      rw [hcn]
      dsimp only
      unfold extractFallback
      rw [hcm]

/-- Witness for `c7_extraction` at concrete inputs. -/
theorem c7_witness :
    extractJavaScript (("x: ").data ++ (fence ++ (("let y = 2;").data ++
      (fence ++ ("!").data)))) = trimChars (dropLangTag (("let y = 2;").data)) ∧
    extractJavaScript (("plain answer").data) = trimChars (("plain answer").data) :=
  ⟨c7_extraction.1 (("x: ").data) (("let y = 2;").data) (("!").data)
      (by decide) (by decide) (by decide) (by decide),
   c7_extraction.2 (("plain answer").data)
      (by
        intro i j hi _
        have hnone := (firstOcc_eq_none_iff fence (("plain answer").data)
          (by decide)).mp (by decide) i
        rw [hnone] at hi
        exact absurd hi (by simp))
      (by decide)⟩
